import Mathlib

/-!
Verification of the probitas CLI utilities: selector parsing and matching
(`src/cli/types.ts`, `src/cli/utils.ts`), option parsing, configuration
loading (`cli/config.ts`), exit-code translation (subprocess runner and
`src/cli/commands/run.ts`), the backoff policy and the stack-trace
sanitizer of `BaseReporter`.

JavaScript strings are modelled as `List Char`.  `String.prototype.trim`,
`split`, `includes`, `startsWith`, `indexOf`, `parseInt` and the regex
replace of `sanitizeStack` are embedded as executable functions below.
-/

set_option maxHeartbeats 1000000

namespace Probitas

/-- Strings of the embedded programs: JavaScript strings as lists of
characters. -/
abbrev Str := List Char

/-- Model of the JavaScript whitespace class (used by `trim` and by the
`\s` regex class): the common whitespace code points. -/
def jsSpace (c : Char) : Bool :=
  c = ' ' || c = '\t' || c = '\n' || c = '\r' ||
  c = Char.ofNat 11 || c = Char.ofNat 12 || c = Char.ofNat 160

/-- Model of `String.prototype.toLowerCase` (ASCII letters; the scenarios
and selectors exercised here are ASCII). -/
def toLower (s : Str) : Str := s.map Char.toLower

/-- Left half of `String.prototype.trim`. -/
def trimLeft (s : Str) : Str := s.dropWhile jsSpace

/-- Right half of `String.prototype.trim`. -/
def trimRight (s : Str) : Str := (s.reverse.dropWhile jsSpace).reverse

/-- Model of `String.prototype.trim`: drop whitespace from both ends. -/
def trim (s : Str) : Str := trimRight (trimLeft s)

/-- Model of `String.prototype.includes`: `sub` occurs contiguously in
`hay`.  `startsWith pat s` checks that `pat` is an initial segment. -/
def startsWith : Str → Str → Bool
  | [], _ => true
  | _ :: _, [] => false
  | a :: as, b :: bs => a = b && startsWith as bs

/-- Model of `hay.includes(sub)`. -/
def containsStr (hay sub : Str) : Bool :=
  match hay with
  | [] => sub.isEmpty
  | _ :: rest => startsWith sub hay || containsStr rest sub

/-- The selector types of `src/cli/types.ts` (`SelectorType`). -/
inductive SelectorType
  | tag
  | name
  | file
deriving DecidableEq, Repr

/-- The `Selector` record of `src/cli/types.ts`. -/
structure Selector where
  type : SelectorType
  value : Str
  negated : Bool
deriving DecidableEq, Repr

/-- Split `input` at its first `:` (the `input.indexOf(":")` step of
`parseSelector`): `some (pre, post)` when a colon exists, `none`
otherwise. -/
def splitAtColon : Str → Option (Str × Str)
  | [] => none
  | c :: rest =>
    if c = ':' then some ([], rest)
    else (splitAtColon rest).map (fun pr => (c :: pr.1, pr.2))

/-- Fuelled version of the `while (input.startsWith("!"))` loop of
`parseSelector`: strip one leading `!`, toggle the flag, re-trim, and
repeat.  Each iteration consumes at least one character, so fuel equal to
the string length suffices. -/
def stripBangFuel : Nat → Str → Bool → Str × Bool
  | 0, s, neg => (s, neg)
  | _ + 1, [], neg => ([], neg)
  | f + 1, c :: rest, neg =>
    if c = '!' then stripBangFuel f (trim rest) (!neg) else (c :: rest, neg)

/-- The `!`-stripping loop of `parseSelector`, run with sufficient fuel. -/
def stripBang (s : Str) (neg : Bool) : Str × Bool :=
  stripBangFuel s.length s neg

/-- The `type:value` dispatch of `parseSelector`, applied after the `!`
prefixes have been stripped: split at the first colon and accept the
type when it is exactly `tag`, `name` or `file`; otherwise the whole
remaining input is a `name` selector. -/
def selectorOf (input : Str) (negated : Bool) : Selector :=
  match splitAtColon input with
  | some (pre, post) =>
    let ty := trim pre
    if ty = "tag".toList then ⟨.tag, trim post, negated⟩
    else if ty = "name".toList then ⟨.name, trim post, negated⟩
    else if ty = "file".toList then ⟨.file, trim post, negated⟩
    else ⟨.name, input, negated⟩
  | none => ⟨.name, input, negated⟩

/-- Model of `parseSelector` (`src/cli/types.ts`): trim, strip repeated
`!` (toggling `negated`), then dispatch on the optional `type:` form. -/
def parseSelector (s : Str) : Selector :=
  let p := stripBang (trim s) false
  selectorOf p.1 p.2

/-- The fields of a `ScenarioDefinition` that selector matching reads:
`name`, `options.tags`, and `location?.file` (`none` models a scenario
with no location, or a location without a file). -/
structure ScenarioDefinition where
  name : Str
  tags : List Str
  locationFile : Option Str
deriving DecidableEq, Repr

/-- Model of `matchSelector` (`src/cli/utils.ts`): case-insensitive
substring containment against the field selected by the selector type. -/
def matchSelector (scenario : ScenarioDefinition) (selector : Selector) : Bool :=
  let value := toLower selector.value
  match selector.type with
  | .tag => scenario.tags.any (fun tag => containsStr (toLower tag) value)
  | .name => containsStr (toLower scenario.name) value
  | .file =>
    match scenario.locationFile with
    | some f => containsStr (toLower f) value
    | none => false

/-- Model of `applySelectors` (`src/cli/utils.ts`): with no selector
strings return the input unchanged; otherwise keep the scenarios for
which some selector string (OR) has all of its comma-separated
components (AND) matching, each component's match inverted when its
parsed `negated` flag is set. -/
def applySelectors (scenarios : List ScenarioDefinition)
    (selectorStrings : List Str) : List ScenarioDefinition :=
  if selectorStrings.isEmpty then scenarios
  else
    scenarios.filter (fun scenario =>
      selectorStrings.any (fun selectorString =>
        ((selectorString.splitOn ',').map (fun s => parseSelector (trim s))).all
          (fun selector =>
            let m := matchSelector scenario selector
            if selector.negated then !m else m)))

/-- A JavaScript number argument: `NaN` or a finite value. -/
inductive JSNum
  | nan
  | val (q : ℚ)
deriving DecidableEq, Repr

/-- The `maxConcurrency?: string | number` argument of
`parseMaxConcurrency`. -/
inductive MaxOptInput
  | undef
  | num (n : JSNum)
  | str (s : Str)
deriving DecidableEq, Repr

/-- The error message thrown by `parseMaxConcurrency`. -/
def pmcMsg : String := "max-concurrency must be a positive integer"

/-- Model of `parseInt(s, 10)`: skip leading whitespace, take an optional
sign and then the longest run of decimal digits; `none` models `NaN`
(no digits).  The exact integer is returned (float rounding of very long
digit runs is not modelled). -/
def parseIntBase10 (s : Str) : Option Int :=
  let t := s.dropWhile jsSpace
  let sgn : Int := match t with
    | '-' :: _ => -1
    | _ => 1
  let t' : Str := match t with
    | '-' :: r => r
    | '+' :: r => r
    | _ => t
  let ds := t'.takeWhile Char.isDigit
  if ds.isEmpty then none
  else some (sgn * (ds.foldl (fun a c => a * 10 + (c.toNat - 48)) 0 : Nat))

/-- Model of `parseMaxConcurrency` (`src/cli/utils.ts`): `undefined`
passes through; a string containing `.` throws; otherwise the value (or
its `parseInt`) must be an integer `≥ 1`, else the function throws. -/
def parseMaxConcurrency : MaxOptInput → Except String (Option ℚ)
  | .undef => .ok none
  | .num .nan => .error pmcMsg
  | .num (.val q) =>
    if q.den = 1 ∧ 1 ≤ q then .ok (some q) else .error pmcMsg
  | .str s =>
    if '.' ∈ s then .error pmcMsg
    else
      match parseIntBase10 s with
      | none => .error pmcMsg
      | some z => if 1 ≤ z then .ok (some (z : ℚ)) else .error pmcMsg

/-- The two backoff policies of the retry configuration. -/
inductive BackoffPolicy
  | linear
  | exponential
deriving DecidableEq, Repr

/-- Modelled from the spec: the runner's backoff implementation is not
among the provided sources (only the CLI, reporter base and tests are);
§4.1 defines `delay(attemptIndex, base)` as `base * attemptIndex` for the
linear policy and `base * 2 ^ (attemptIndex - 1)` for the exponential
policy. -/
def backoffDelay (policy : BackoffPolicy) (attemptIndex base : Nat) : Nat :=
  match policy with
  | .linear => base * attemptIndex
  | .exponential => base * 2 ^ (attemptIndex - 1)

/-- Modelled from the spec: `src/cli/constants.ts` is not among the
provided sources; §6 fixes the exit-code contract 0 = success. -/
def exitSuccess : Nat := 0

/-- Modelled from the spec: §6 exit-code contract, 1 = run failure. -/
def exitFailure : Nat := 1

/-- Modelled from the spec: §6 exit-code contract, 2 = usage error. -/
def exitUsageError : Nat := 2

/-- Modelled from the spec: §6 exit-code contract, 4 = not-found. -/
def exitNotFound : Nat := 4

/-- The exit-code decision of the subprocess runner's `main`
(`cli/subprocess/runner.ts`): abstracted over the scenarios loaded from
the files and the run summary's `failed` count. -/
def subprocessRunnerMain (files : List Str)
    (scenarios : List ScenarioDefinition) (selectors : Option (List Str))
    (failed : Nat) : Nat :=
  if files.isEmpty then 1
  else if scenarios.isEmpty then 4
  else if (applySelectors scenarios (selectors.getD [])).isEmpty then 4
  else if 0 < failed then 1 else 0

/-- The exit-code mapping at the end of `runCommand`
(`src/cli/commands/run.ts`): subprocess code 0 ↦ success, 4 ↦ not-found,
anything else ↦ failure. -/
def mapSubprocessExit (code : Nat) : Nat :=
  if code = 0 then exitSuccess
  else if code = 4 then exitNotFound
  else exitFailure

/-- JSON(C) values, the result of `parseJsonc` in `loadConfig`. -/
inductive JValue
  | null
  | bool (b : Bool)
  | num (q : ℚ)
  | str (s : Str)
  | arr (elems : List JValue)
  | obj (fields : List (Str × JValue))

/-- JavaScript property read on a parsed object: the value of the last
binding of `key` (later duplicate keys win in `JSON.parse`), `none` for
an absent property. -/
def jsLookup : List (Str × JValue) → Str → Option JValue
  | [], _ => none
  | (k, v) :: rest, key =>
    match jsLookup rest key with
    | some r => some r
    | none => if k = key then some v else none

/-- Property read `v.probitas` on an arbitrary JSON value: only objects
have string-keyed properties (reading off a primitive yields
`undefined`; the `null` case is handled by the caller, where it throws). -/
def jsGet (v : JValue) (key : Str) : Option JValue :=
  match v with
  | .obj fields => jsLookup fields key
  | _ => none

/-- JavaScript falsiness of a JSON value (for `config.probitas || {}`). -/
def jsFalsy : JValue → Bool
  | .null => true
  | .bool b => !b
  | .num q => q = 0
  | .str s => s.isEmpty
  | _ => false

/-- The `config.probitas || {}` step of `loadConfig`: an absent or falsy
`probitas` property becomes the empty object. -/
def probitasSection (v : JValue) : JValue :=
  match jsGet v ("probitas".toList) with
  | none => .obj []
  | some p => if jsFalsy p then .obj [] else p

/-- The `ProbitasConfig` record produced by `parseProbitasConfig`
(validated fields only; `stepOptions` is cast through unvalidated). -/
structure ProbitasConfigM where
  reporter : Option Str
  includes : Option (List Str)
  excludes : Option (List Str)
  selectors : Option (List Str)
  maxConcurrency : Option ℚ
  maxFailures : Option ℚ
  stepOptions : Option JValue

/-- The reporter names accepted by `is.LiteralOneOf(["dot", "list",
"json", "tap"])`. -/
def reporterNames : List Str :=
  ["dot".toList, "list".toList, "json".toList, "tap".toList]

/-- `is.String` as a partial projection. -/
def strOf : JValue → Option Str
  | .str s => some s
  | _ => none

/-- `is.ArrayOf(is.String)` on the element list: all elements must be
strings. -/
def strListOf : List JValue → Option (List Str)
  | [] => some []
  | v :: rest =>
    match strOf v, strListOf rest with
    | some s, some ss => some (s :: ss)
    | _, _ => none

/-- `maybe(x, is.ArrayOf(is.String))`: `some` exactly on arrays whose
elements are all strings. -/
def asStrArray : Option JValue → Option (List Str)
  | some (.arr xs) => strListOf xs
  | _ => none

/-- Model of `parseProbitasConfig` (`cli/config.ts`): on a non-object the
empty config; on an object each known field is validated with `maybe`
(invalid or absent values become `undefined`), `stepOptions` is cast
through unchecked, and unknown fields are not copied. -/
def parseProbitasConfig : JValue → ProbitasConfigM
  | .obj fields =>
    { reporter :=
        match jsLookup fields ("reporter".toList) with
        | some (.str r) => if r ∈ reporterNames then some r else none
        | _ => none
      includes := asStrArray (jsLookup fields ("includes".toList))
      excludes := asStrArray (jsLookup fields ("excludes".toList))
      selectors := asStrArray (jsLookup fields ("selectors".toList))
      maxConcurrency :=
        match jsLookup fields ("maxConcurrency".toList) with
        | some (.num q) => some q
        | _ => none
      maxFailures :=
        match jsLookup fields ("maxFailures".toList) with
        | some (.num q) => some q
        | _ => none
      stepOptions := jsLookup fields ("stepOptions".toList) }
  | _ => ⟨none, none, none, none, none, none, none⟩

/-- What `loadConfig` is given: a file that cannot be read, a file whose
contents fail JSON(C) parsing, or the parsed JSON value. -/
inductive ConfigSource
  | unreadable
  | invalidJson
  | parsed (v : JValue)

/-- The ways `loadConfig` can throw: the read error, the `SyntaxError`
of `parseJsonc`, or the `TypeError` of reading `.probitas` off `null`. -/
inductive LoadError
  | readError
  | syntaxError
  | typeError
deriving DecidableEq, Repr

/-- Model of `loadConfig` (`cli/config.ts`): read the file, parse it as
JSON(C), take `config.probitas || {}` and validate it.  When the parsed
top-level value is `null`, the property read `config.probitas` throws a
`TypeError`. -/
def loadConfig : ConfigSource → Except LoadError ProbitasConfigM
  | .unreadable => .error .readError
  | .invalidJson => .error .syntaxError
  | .parsed .null => .error .typeError
  | .parsed v => .ok (parseProbitasConfig (probitasSection v))

/-- Negation of the `\s` class: the characters `[^\s]` matches. -/
def nonWS (c : Char) : Bool := !(jsSpace c)

/-- The characters the capture-group class `[^\s:)]` matches. -/
def validTail (c : Char) : Bool := !(jsSpace c) && !(c = ':') && !(c = ')')

/-- Does the string begin with `/src/` followed by one `[^\s:)]`
character — the suffix `\/(src\/[^\s:)]+` of the sanitizer's regex needs
such a position to close a match. -/
def srcHere : Str → Bool
  | a :: b :: c :: d :: e :: f :: _ =>
    a = '/' && b = 's' && c = 'r' && d = 'c' && e = '/' && validTail f
  | _ => false

/-- Backtracking of the greedy `[^\s]*` in the sanitizer's regex: the
largest `k` such that the first `k` characters are non-whitespace and
`/src/[^\s:)]` starts at position `k`; `none` when no such `k` exists. -/
def findK : Str → Option Nat
  | [] => none
  | c :: rest =>
    if jsSpace c then none
    else
      match findK rest with
      | some k => some (k + 1)
      | none => if srcHere (c :: rest) then some 0 else none

/-- Try the regex `file:\/\/\/[^\s]*\/(src\/[^\s:)]+)` at the start of
the string: on success return the captured group (`src/` plus the
longest `[^\s:)]+` run) and the rest of the string after the match. -/
def matchHere : Str → Option (Str × Str)
  | 'f' :: 'i' :: 'l' :: 'e' :: ':' :: '/' :: '/' :: '/' :: t =>
    (match findK t with
     | none => none
     | some k =>
       let u := t.drop (k + 5)
       some ('s' :: 'r' :: 'c' :: '/' :: u.takeWhile validTail,
             u.dropWhile validTail))
  | _ => none

/-- The leftmost regex match in the string: its start position, captured
group, and the rest after the match. -/
def findMatch : Str → Option (Nat × Str × Str)
  | [] => none
  | c :: rest =>
    match matchHere (c :: rest) with
    | some ga => some (0, ga.1, ga.2)
    | none => (findMatch rest).map (fun x => (x.1 + 1, x.2))

/-- Fuelled global regex replace of `BaseReporter.sanitizeStack`: replace
each leftmost match by its captured group and continue after the match.
Every match consumes at least 14 characters, so fuel equal to the string
length suffices. -/
def sanitizeFuel : Nat → Str → Str
  | 0, l => l
  | f + 1, l =>
    match findMatch l with
    | none => l
    | some (p, g, after) => l.take p ++ g ++ sanitizeFuel f after

/-- Model of `BaseReporter.sanitizeStack`
(`src/reporter/base_reporter.ts`): the global replace of
`file:\/\/\/[^\s]*\/(src\/[^\s:)]+)` by the captured group `$1`. -/
def sanitizeStack (l : Str) : Str := sanitizeFuel l.length l

/-- A position from which the regex tail can complete: some split of the
string into a non-whitespace prefix and a `/src/[^\s:)]` position. -/
def reach (t : Str) : Prop :=
  ∃ j, (t.take j).all nonWS = true ∧ srcHere (t.drop j) = true

/-- The literal `file:///` of the sanitizer's regex. -/
def fileSeg : Str := ['f', 'i', 'l', 'e', ':', '/', '/', '/']

/-- The literal `/src/` of the sanitizer's regex. -/
def srcSeg : Str := ['/', 's', 'r', 'c', '/']

/-- The literal `src/` leading the captured group. -/
def grpSeg : Str := ['s', 'r', 'c', '/']

theorem startsWith_iff (pat s : Str) :
    startsWith pat s = true ↔ ∃ rest, s = pat ++ rest := by
  induction pat generalizing s with
  | nil => simp [startsWith]
  | cons a as ih =>
    cases s with
    | nil => simp [startsWith]
    | cons b bs =>
      simp only [startsWith, Bool.and_eq_true, decide_eq_true_eq, ih,
        List.cons_append, List.cons.injEq]
      constructor
      · rintro ⟨rfl, rest, rfl⟩; exact ⟨rest, rfl, rfl⟩
      · rintro ⟨rest, rfl, rfl⟩; exact ⟨rfl, rest, rfl⟩

theorem containsStr_iff (hay sub : Str) :
    containsStr hay sub = true ↔ ∃ a b, hay = a ++ sub ++ b := by
  induction hay with
  | nil =>
    simp only [containsStr, List.isEmpty_iff]
    constructor
    · rintro rfl; exact ⟨[], [], rfl⟩
    · rintro ⟨a, b, h⟩
      rcases List.append_eq_nil.mp h.symm with ⟨h1, h2⟩
      exact (List.append_eq_nil.mp h1).2
  | cons c rest ih =>
    simp only [containsStr, Bool.or_eq_true, startsWith_iff, ih]
    constructor
    · rintro (⟨r, hr⟩ | ⟨a, b, rfl⟩)
      · exact ⟨[], r, by simp [hr]⟩
      · exact ⟨c :: a, b, rfl⟩
    · rintro ⟨a, b, h⟩
      cases a with
      | nil => exact Or.inl ⟨b, by simpa using h⟩
      | cons a0 as =>
        simp only [List.cons_append, List.cons.injEq] at h
        exact Or.inr ⟨as, b, h.2⟩

/-- Claim C6 — spec-modelled backoff: for every `attemptIndex ≥ 1` and
every `base`, the linear delay is `base * attemptIndex` and the
exponential delay is `base * 2 ^ (attemptIndex - 1)`; with `base = 10`
the attempt-3 delays are 30 and 40. -/
theorem backoffDelay_spec (attemptIndex base : Nat) (h : 1 ≤ attemptIndex) :
    backoffDelay .linear attemptIndex base = base * attemptIndex ∧
    backoffDelay .exponential attemptIndex base = base * 2 ^ (attemptIndex - 1) ∧
    backoffDelay .linear 3 10 = 30 ∧
    backoffDelay .exponential 3 10 = 40 :=
  ⟨rfl, rfl, rfl, rfl⟩

/-- Witness for `backoffDelay_spec` at `attemptIndex = 3`, `base = 10`. -/
theorem backoffDelay_spec_witness :
    1 ≤ 3 ∧
    (backoffDelay .linear 3 10 = 10 * 3 ∧
     backoffDelay .exponential 3 10 = 10 * 2 ^ (3 - 1) ∧
     backoffDelay .linear 3 10 = 30 ∧
     backoffDelay .exponential 3 10 = 40) :=
  ⟨by decide, backoffDelay_spec 3 10 (by decide)⟩

/-- Claim C8 — `applySelectors` returns a sublist of its input (every
returned scenario is an input element, relative order is preserved, no
duplicates are introduced), and with no selector strings it returns the
input list itself. -/
theorem applySelectors_sublist_id (scenarios : List ScenarioDefinition)
    (selectorStrings : List Str) :
    List.Sublist (applySelectors scenarios selectorStrings) scenarios ∧
    applySelectors scenarios [] = scenarios := by
  constructor
  · unfold applySelectors
    by_cases h : selectorStrings.isEmpty
    · simp [h]
    · simp only [h, Bool.false_eq_true, if_neg, ite_false]
      exact List.filter_sublist _
  · rfl

/-- Claim C4 — the subprocess runner's `main` returns 4 exactly when no
scenarios were loaded or none matched the selectors; otherwise 1 when
the summary's `failed` count is positive and 0 when it is zero; and the
run command maps subprocess exit code 0 to 0, 4 to 4, and every other
code to 1. -/
theorem exit_code_contract (files : List Str)
    (scenarios : List ScenarioDefinition) (selectors : Option (List Str))
    (failed : Nat) (h : files ≠ []) :
    (subprocessRunnerMain files scenarios selectors failed = 4 ↔
      scenarios = [] ∨ applySelectors scenarios (selectors.getD []) = []) ∧
    (scenarios ≠ [] → applySelectors scenarios (selectors.getD []) ≠ [] →
      subprocessRunnerMain files scenarios selectors failed =
        if 0 < failed then 1 else 0) ∧
    mapSubprocessExit 0 = 0 ∧ mapSubprocessExit 4 = 4 ∧
    (∀ c, c ≠ 0 → c ≠ 4 → mapSubprocessExit c = 1) := by
  have hf : files.isEmpty = false := by
    cases files with
    | nil => exact absurd rfl h
    | cons a as => rfl
  refine ⟨?_, ?_, rfl, rfl, ?_⟩
  · unfold subprocessRunnerMain
    rw [hf]
    simp only [Bool.false_eq_true, if_false]
    by_cases h1 : scenarios.isEmpty
    · simp [h1, List.isEmpty_iff.mp h1]
    · have h1' : scenarios ≠ [] := by
        intro he; exact h1 (by simp [he])
      simp only [h1, Bool.false_eq_true, if_false]
      by_cases h2 : (applySelectors scenarios (selectors.getD [])).isEmpty
      · simp [h2, List.isEmpty_iff.mp h2, h1']
      · have h2' : applySelectors scenarios (selectors.getD []) ≠ [] := by
          intro he; exact h2 (by simp [he])
        simp only [h2, Bool.false_eq_true, if_false]
        constructor
        · intro hx
          by_cases hp : 0 < failed <;> simp [hp] at hx
        · rintro (rfl | he)
          · exact absurd rfl h1'
          · exact absurd he h2'
  · intro h1 h2
    unfold subprocessRunnerMain
    rw [hf]
    have h1' : scenarios.isEmpty = false := by
      cases scenarios with
      | nil => exact absurd rfl h1
      | cons a as => rfl
    have h2' : (applySelectors scenarios (selectors.getD [])).isEmpty = false := by
      cases he : applySelectors scenarios (selectors.getD []) with
      | nil => exact absurd he h2
      | cons a as => simp [he]
    rw [h1', h2']
    simp
  · intro c hc0 hc4
    unfold mapSubprocessExit exitFailure
    rw [if_neg hc0, if_neg hc4]

/-- Witness for `exit_code_contract`: one file, no loaded scenarios. -/
theorem exit_code_contract_witness :
    ([['a']] : List Str) ≠ [] ∧
    ((subprocessRunnerMain [['a']] [] none 0 = 4 ↔
       ([] : List ScenarioDefinition) = [] ∨
       applySelectors [] ((none : Option (List Str)).getD []) = []) ∧
     (([] : List ScenarioDefinition) ≠ [] →
       applySelectors [] ((none : Option (List Str)).getD []) ≠ [] →
       subprocessRunnerMain [['a']] [] none 0 = if 0 < 0 then 1 else 0) ∧
     mapSubprocessExit 0 = 0 ∧ mapSubprocessExit 4 = 4 ∧
     (∀ c, c ≠ 0 → c ≠ 4 → mapSubprocessExit c = 1)) :=
  ⟨List.cons_ne_nil _ _, exit_code_contract [['a']] [] none 0 (List.cons_ne_nil _ _)⟩

/-- Claim C5, counterexample — `parseMaxConcurrency` on the string
`"2abc"` returns 2 instead of throwing, although `"2abc"` does not
denote a positive integer: `parseInt` ignores trailing non-digit
characters. -/
theorem parseMaxConcurrency_counterexample :
    parseMaxConcurrency (MaxOptInput.str ("2abc".toList)) = Except.ok (some 2) ∧
    ∀ e, parseMaxConcurrency (MaxOptInput.str ("2abc".toList)) ≠ Except.error e := by
  have hp : parseIntBase10 ("2abc".toList) = some 2 := by decide
  have h : parseMaxConcurrency (MaxOptInput.str ("2abc".toList)) =
      Except.ok (some 2) := by
    simp only [parseMaxConcurrency, hp]
    norm_num
    exact fun h => absurd h (by decide)
  exact ⟨h, fun e he => by rw [h] at he; cases he⟩

/-- Claim C5, amended — `parseMaxConcurrency` passes `undefined`
through; it accepts a number that is an integer `≥ 1`, and a string
without `.` whose `parseInt` (longest leading base-10 integer, trailing
garbage ignored) is `≥ 1`; every other defined input throws
`"max-concurrency must be a positive integer"`. -/
theorem parseMaxConcurrency_spec (inp : MaxOptInput) (q : ℚ) :
    parseMaxConcurrency MaxOptInput.undef = Except.ok none ∧
    (parseMaxConcurrency inp = Except.ok (some q) ↔
      (inp = .num (.val q) ∧ q.den = 1 ∧ 1 ≤ q) ∨
      (∃ s z, inp = .str s ∧ '.' ∉ s ∧ parseIntBase10 s = some z ∧ 1 ≤ z ∧
        q = (z : ℚ))) ∧
    (inp ≠ .undef →
      parseMaxConcurrency inp = Except.error pmcMsg ∨
      ∃ r, parseMaxConcurrency inp = Except.ok (some r)) := by
  refine ⟨rfl, ?_, ?_⟩
  · cases inp with
    | undef => simp [parseMaxConcurrency]
    | num n =>
      cases n with
      | nan => simp [parseMaxConcurrency]
      | val x =>
        by_cases hx : x.den = 1 ∧ 1 ≤ x
        · simp only [parseMaxConcurrency, if_pos hx]
          constructor
          · intro he
            have : x = q := by injection he with h1; injection h1
            exact Or.inl ⟨by rw [this], this ▸ hx⟩
          · rintro (⟨he, _⟩ | ⟨s, z, he, _⟩)
            · injection he with h1; injection h1 with h2
              rw [h2]
            · cases he
        · simp only [parseMaxConcurrency, if_neg hx]
          constructor
          · intro he; cases he
          · rintro (⟨he, hq⟩ | ⟨s, z, he, _⟩)
            · injection he with h1; injection h1 with h2
              exact absurd (h2 ▸ hq) hx
            · cases he
    | str s =>
      by_cases hdot : '.' ∈ s
      · simp only [parseMaxConcurrency, if_pos hdot]
        constructor
        · intro he; cases he
        · rintro (⟨he, _⟩ | ⟨s', z, he, hd, _⟩)
          · cases he
          · injection he with h1; exact absurd (h1 ▸ hdot) hd
      · simp only [parseMaxConcurrency, if_neg hdot]
        cases hp : parseIntBase10 s with
        | none =>
          constructor
          · intro he; cases he
          · rintro (⟨he, _⟩ | ⟨s', z, he, _, hpz, _⟩)
            · cases he
            · injection he with h1; rw [h1] at hp; rw [hp] at hpz; cases hpz
        | some z =>
          by_cases hz : 1 ≤ z
          · simp only [if_pos hz]
            constructor
            · intro he
              injection he with h1; injection h1 with h2
              exact Or.inr ⟨s, z, rfl, hdot, hp, hz, h2.symm⟩
            · rintro (⟨he, _⟩ | ⟨s', z', he, _, hpz, hz', hqz⟩)
              · cases he
              · injection he with h1
                rw [h1] at hp; rw [hp] at hpz
                injection hpz with h2
                rw [hqz, h2]
          · simp only [if_neg hz]
            constructor
            · intro he; cases he
            · rintro (⟨he, _⟩ | ⟨s', z', he, _, hpz, hz', _⟩)
              · cases he
              · injection he with h1
                rw [h1] at hp; rw [hp] at hpz
                injection hpz with h2
                exact absurd (h2 ▸ hz') hz
  · intro hne
    cases inp with
    | undef => exact absurd rfl hne
    | num n =>
      cases n with
      | nan => exact Or.inl rfl
      | val x =>
        by_cases hx : x.den = 1 ∧ 1 ≤ x
        · exact Or.inr ⟨x, by simp [parseMaxConcurrency, if_pos hx]⟩
        · exact Or.inl (by simp [parseMaxConcurrency, if_neg hx])
    | str s =>
      by_cases hdot : '.' ∈ s
      · exact Or.inl (by simp [parseMaxConcurrency, if_pos hdot])
      · cases hp : parseIntBase10 s with
        | none =>
          exact Or.inl (by simp [parseMaxConcurrency, if_neg hdot, hp])
        | some z =>
          by_cases hz : 1 ≤ z
          · exact Or.inr ⟨(z : ℚ),
              by simp [parseMaxConcurrency, if_neg hdot, hp, if_pos hz]⟩
          · exact Or.inl
              (by simp [parseMaxConcurrency, if_neg hdot, hp, if_neg hz])

/-- Witness for `parseMaxConcurrency_spec` at the string `"7"`. -/
theorem parseMaxConcurrency_spec_witness :
    MaxOptInput.str ("7".toList) ≠ MaxOptInput.undef ∧
    (parseMaxConcurrency (MaxOptInput.str ("7".toList)) = Except.error pmcMsg ∨
      ∃ r, parseMaxConcurrency (MaxOptInput.str ("7".toList)) =
        Except.ok (some r)) :=
  ⟨by simp, (parseMaxConcurrency_spec (MaxOptInput.str ("7".toList)) 7).2.2
    (by simp)⟩

/-- Claim C3 — a (non-negated) selector matches a scenario exactly when
the lowercased selector value occurs as a substring of the lowercased
target field (some tag, the scenario name, or the location file), and a
scenario with no location never matches a file selector. -/
theorem matchSelector_spec (sc : ScenarioDefinition) (sel : Selector) :
    (matchSelector sc sel = true ↔
      match sel.type with
      | .tag => ∃ t ∈ sc.tags, ∃ a b, toLower t = a ++ toLower sel.value ++ b
      | .name => ∃ a b, toLower sc.name = a ++ toLower sel.value ++ b
      | .file => ∃ f, sc.locationFile = some f ∧
          ∃ a b, toLower f = a ++ toLower sel.value ++ b) ∧
    (∀ v ng, matchSelector { sc with locationFile := none } ⟨.file, v, ng⟩
      = false) := by
  constructor
  · cases htype : sel.type with
    | tag =>
      simp only [matchSelector, htype, List.any_eq_true, containsStr_iff]
    | name =>
      simp only [matchSelector, htype, containsStr_iff]
    | file =>
      cases hloc : sc.locationFile with
      | none => simp [matchSelector, htype, hloc]
      | some f => simp [matchSelector, htype, hloc, containsStr_iff]
  · intro v ng
    rfl

theorem jsSpace_bang : jsSpace '!' = false := by decide

theorem length_trimRight_le (s : Str) : (trimRight s).length ≤ s.length := by
  simpa [trimRight] using (List.dropWhile_sublist (l := s.reverse) jsSpace).length_le

theorem length_trim_le (s : Str) : (trim s).length ≤ s.length :=
  le_trans (length_trimRight_le _)
    (by simpa [trimLeft] using (List.dropWhile_sublist (l := s) jsSpace).length_le)

theorem stripBangFuel_stab (f : Nat) :
    ∀ (s : Str) (neg : Bool), s.length ≤ f →
      stripBangFuel (f + 1) s neg = stripBangFuel f s neg := by
  induction f with
  | zero =>
    intro s neg h
    rw [Nat.le_zero, List.length_eq_zero] at h
    subst h
    rfl
  | succ f ih =>
    intro s neg h
    cases s with
    | nil => rfl
    | cons c rest =>
      show (if c = '!' then stripBangFuel (f + 1) (trim rest) (!neg)
            else (c :: rest, neg)) =
        (if c = '!' then stripBangFuel f (trim rest) (!neg)
          else (c :: rest, neg))
      by_cases hc : c = '!'
      · rw [if_pos hc, if_pos hc]
        exact ih (trim rest) (!neg)
          (le_trans (length_trim_le rest) (Nat.succ_le_succ_iff.mp h))
      · rw [if_neg hc, if_neg hc]

theorem stripBangFuel_of_le (f : Nat) (s : Str) (neg : Bool)
    (h : s.length ≤ f) : stripBangFuel f s neg = stripBang s neg := by
  unfold stripBang
  induction f with
  | zero =>
    rw [Nat.le_zero, List.length_eq_zero] at h
    subst h
    rfl
  | succ f ih =>
    rcases Nat.lt_or_ge s.length (f + 1) with hlt | hge
    · rw [stripBangFuel_stab f s neg (Nat.lt_succ_iff.mp hlt)]
      exact ih (Nat.lt_succ_iff.mp hlt)
    · have : s.length = f + 1 := le_antisymm h hge
      rw [this]

theorem stripBang_cons (c : Char) (rest : Str) (neg : Bool) :
    stripBang (c :: rest) neg =
      if c = '!' then stripBang (trim rest) (!neg) else (c :: rest, neg) := by
  show stripBangFuel (rest.length + 1) (c :: rest) neg = _
  show (if c = '!' then stripBangFuel rest.length (trim rest) (!neg)
        else (c :: rest, neg)) = _
  by_cases hc : c = '!'
  · rw [if_pos hc, if_pos hc,
      stripBangFuel_of_le rest.length (trim rest) (!neg) (length_trim_le rest)]
  · rw [if_neg hc, if_neg hc]

theorem stripBang_of_head_ne (t : Str) (neg : Bool)
    (h : t.head? ≠ some '!') : stripBang t neg = (t, neg) := by
  cases t with
  | nil => rfl
  | cons c rest =>
    have hc : c ≠ '!' := fun he => h (by rw [he]; rfl)
    rw [stripBang_cons, if_neg hc]

theorem dropWhile_append_last {p : Char → Bool} {xs : Str} {a : Char}
    (h : p a = false) :
    (xs ++ [a]).dropWhile p = xs.dropWhile p ++ [a] := by
  induction xs with
  | nil => simp [List.dropWhile_cons, h]
  | cons x xs ih =>
    by_cases hx : p x
    · simp [List.dropWhile_cons, hx, ih]
    · simp [List.dropWhile_cons, hx]

theorem trimRight_cons_of_nonspace {c : Char} (s : Str)
    (h : jsSpace c = false) : trimRight (c :: s) = c :: trimRight s := by
  unfold trimRight
  rw [List.reverse_cons, dropWhile_append_last h, List.reverse_append]
  rfl

theorem trimRight_cons (c : Char) (s : Str) :
    trimRight (c :: s) =
      if (trimRight s).isEmpty then (if jsSpace c then [] else [c])
      else c :: trimRight s := by
  unfold trimRight
  rw [List.reverse_cons, List.dropWhile_append]
  by_cases he : (s.reverse.dropWhile jsSpace).isEmpty
  · rw [if_pos he]
    have he' : ((s.reverse.dropWhile jsSpace).reverse).isEmpty = true := by
      simpa using he
    rw [if_pos he']
    by_cases hc : jsSpace c
    · simp [List.dropWhile_cons, hc]
    · simp [List.dropWhile_cons, hc]
  · rw [if_neg he]
    have he' : ((s.reverse.dropWhile jsSpace).reverse).isEmpty = false := by
      simpa using he
    rw [he']
    simp

theorem trimLeft_cons_of_space {c : Char} (s : Str) (h : jsSpace c = true) :
    trimLeft (c :: s) = trimLeft s := by
  simp [trimLeft, List.dropWhile_cons, h]

theorem trimLeft_cons_of_nonspace {c : Char} (s : Str)
    (h : jsSpace c = false) : trimLeft (c :: s) = c :: s := by
  simp [trimLeft, List.dropWhile_cons, h]

theorem trimLeft_trimRight_comm (s : Str) :
    trimLeft (trimRight s) = trimRight (trimLeft s) := by
  induction s with
  | nil => rfl
  | cons c rest ih =>
    by_cases hc : jsSpace c = true
    · rw [trimLeft_cons_of_space rest hc, ← ih, trimRight_cons]
      by_cases he : (trimRight rest).isEmpty
      · rw [if_pos he, if_pos hc, List.isEmpty_iff.mp he]
      · rw [if_neg he, trimLeft_cons_of_space _ hc]
    · have hc' : jsSpace c = false := by simpa using hc
      rw [trimLeft_cons_of_nonspace rest hc', trimRight_cons]
      by_cases he : (trimRight rest).isEmpty
      · rw [if_pos he, if_neg hc]
        exact trimLeft_cons_of_nonspace [] hc'
      · rw [if_neg he]
        exact trimLeft_cons_of_nonspace _ hc'

theorem trimRight_idem (s : Str) : trimRight (trimRight s) = trimRight s := by
  induction s with
  | nil => rfl
  | cons c rest ih =>
    rw [trimRight_cons]
    by_cases he : (trimRight rest).isEmpty
    · rw [if_pos he]
      by_cases hc : jsSpace c = true
      · rw [if_pos hc]; rfl
      · have hc' : jsSpace c = false := by simpa using hc
        rw [if_neg hc, trimRight_cons_of_nonspace [] hc']
        rfl
    · rw [if_neg he, trimRight_cons, ih, if_neg he]

theorem trim_trimRight (s : Str) : trim (trimRight s) = trim s := by
  unfold trim
  rw [trimLeft_trimRight_comm, trimRight_idem]

theorem trim_bang (s : Str) : trim ('!' :: s) = '!' :: trimRight s := by
  unfold trim
  rw [trimLeft_cons_of_nonspace s jsSpace_bang,
    trimRight_cons_of_nonspace s jsSpace_bang]

theorem stripBang_neg (t : Str) (b : Bool) :
    stripBang t b =
      ((stripBang t false).1, xor b (stripBang t false).2) := by
  cases t with
  | nil => cases b <;> rfl
  | cons c rest =>
    rw [stripBang_cons, stripBang_cons]
    by_cases hc : c = '!'
    · rw [if_pos hc, if_pos hc]
      simp only [Bool.not_false]
      rw [stripBang_neg (trim rest) (!b), stripBang_neg (trim rest) true]
      cases hx : (stripBang (trim rest) false).2 <;> cases b <;> simp
    · rw [if_neg hc, if_neg hc]
      cases b <;> simp
termination_by t.length
decreasing_by
  all_goals
    simp only [List.length_cons]
    exact Nat.lt_succ_of_le (length_trim_le _)

theorem parseSelector_bang (s : Str) :
    parseSelector ('!' :: s) =
      selectorOf (stripBang (trim s) false).1
        (!(stripBang (trim s) false).2) := by
  unfold parseSelector
  rw [trim_bang, stripBang_cons, if_pos rfl, trim_trimRight]
  simp only [Bool.not_false]
  rw [stripBang_neg (trim s) true]
  simp

theorem selectorOf_negated (input : Str) (b : Bool) :
    selectorOf input b =
      ⟨(selectorOf input false).type, (selectorOf input false).value, b⟩ := by
  unfold selectorOf
  cases splitAtColon input with
  | none => rfl
  | some pr =>
    obtain ⟨pre, post⟩ := pr
    dsimp only
    split_ifs <;> rfl

theorem splitAtColon_eq_none_iff (l : Str) :
    splitAtColon l = none ↔ ':' ∉ l := by
  induction l with
  | nil => simp [splitAtColon]
  | cons c rest ih =>
    by_cases hc : c = ':'
    · subst hc
      simp [splitAtColon]
    · have hstep : splitAtColon (c :: rest) =
          (splitAtColon rest).map (fun x => (c :: x.1, x.2)) := by
        simp [splitAtColon, hc]
      rw [hstep, Option.map_eq_none', ih]
      simp only [List.mem_cons, not_or]
      constructor
      · intro h
        exact ⟨fun he => hc he.symm, h⟩
      · intro h
        exact h.2

theorem splitAtColon_of_decomp (pre post : Str) (h : ':' ∉ pre) :
    splitAtColon (pre ++ ':' :: post) = some (pre, post) := by
  induction pre with
  | nil => simp [splitAtColon]
  | cons c pr ih =>
    have hc : c ≠ ':' := fun he => h (he ▸ List.mem_cons_self c pr)
    have h' : ':' ∉ pr := fun hm => h (List.mem_cons_of_mem c hm)
    have hstep : splitAtColon ((c :: pr) ++ ':' :: post) =
        (splitAtColon (pr ++ ':' :: post)).map (fun x => (c :: x.1, x.2)) := by
      simp [splitAtColon, hc]
    rw [hstep, ih h']
    rfl

theorem selectorOf_nocolon (input : Str) (b : Bool) (h : ':' ∉ input) :
    selectorOf input b = ⟨.name, input, b⟩ := by
  unfold selectorOf
  rw [(splitAtColon_eq_none_iff input).mpr h]

theorem selectorOf_decomp (pre post : Str) (hpre : ':' ∉ pre) (b : Bool) :
    selectorOf (pre ++ ':' :: post) b =
      (if trim pre = "tag".toList then ⟨.tag, trim post, b⟩
       else if trim pre = "name".toList then ⟨.name, trim post, b⟩
       else if trim pre = "file".toList then ⟨.file, trim post, b⟩
       else ⟨.name, pre ++ ':' :: post, b⟩ : Selector) := by
  unfold selectorOf
  rw [splitAtColon_of_decomp pre post hpre]

/-- Claim C2 — `parseSelector` strips leading `!` characters one at a
time, toggling the negation flag on each (so a double `!` cancels); once
no `!` remains, an input with a first-colon decomposition whose type
part trims to exactly `tag`, `name` or `file` yields that type with the
(trimmed) text after the colon as value, and any other input yields a
`name` selector whose value is the entire remaining (trimmed) text. -/
theorem parseSelector_spec (s pre post : Str) :
    (parseSelector ('!' :: s) =
      ⟨(parseSelector s).type, (parseSelector s).value,
        !(parseSelector s).negated⟩) ∧
    (parseSelector ('!' :: '!' :: s) = parseSelector s) ∧
    ((trim s).head? ≠ some '!' → ':' ∉ trim s →
      parseSelector s = ⟨.name, trim s, false⟩) ∧
    ((trim s).head? ≠ some '!' → trim s = pre ++ ':' :: post → ':' ∉ pre →
      ((trim pre = "tag".toList → parseSelector s = ⟨.tag, trim post, false⟩) ∧
       (trim pre = "name".toList →
         parseSelector s = ⟨.name, trim post, false⟩) ∧
       (trim pre = "file".toList →
         parseSelector s = ⟨.file, trim post, false⟩) ∧
       (trim pre ≠ "tag".toList → trim pre ≠ "name".toList →
         trim pre ≠ "file".toList →
         parseSelector s = ⟨.name, trim s, false⟩))) := by
  have htoggle : ∀ u : Str, parseSelector ('!' :: u) =
      ⟨(parseSelector u).type, (parseSelector u).value,
        !(parseSelector u).negated⟩ := by
    intro u
    rw [parseSelector_bang]
    show selectorOf _ _ = _
    rw [selectorOf_negated _ (!(stripBang (trim u) false).2)]
    unfold parseSelector
    rw [selectorOf_negated _ (stripBang (trim u) false).2]
  refine ⟨htoggle s, ?_, ?_, ?_⟩
  · rw [htoggle ('!' :: s), htoggle s, Bool.not_not]
  · intro hh hcolon
    have hps : parseSelector s = selectorOf (trim s) false := by
      unfold parseSelector
      rw [stripBang_of_head_ne (trim s) false hh]
    rw [hps, selectorOf_nocolon (trim s) false hcolon]
  · intro hh hdec hpre
    have hps : parseSelector s = selectorOf (trim s) false := by
      unfold parseSelector
      rw [stripBang_of_head_ne (trim s) false hh]
    rw [hps, hdec, selectorOf_decomp pre post hpre]
    refine ⟨?_, ?_, ?_, ?_⟩
    · intro ht
      rw [ht, if_pos rfl]
    · intro ht
      rw [ht, if_neg (by decide), if_pos rfl]
    · intro ht
      rw [ht, if_neg (by decide), if_neg (by decide), if_pos rfl]
    · intro h1 h2 h3
      rw [if_neg h1, if_neg h2, if_neg h3, ← hdec]

/-- Witness for `parseSelector_spec`: the input `tag:smoke`. -/
theorem parseSelector_spec_witness :
    parseSelector ("tag:smoke".toList) = ⟨.tag, trim ("smoke".toList), false⟩ :=
  ((parseSelector_spec ("tag:smoke".toList) ("tag".toList)
      ("smoke".toList)).2.2.2 (by decide) (by decide) (by decide)).1 (by decide)

theorem negCheck (m neg : Bool) : (if neg then !m else m) = true ↔ m = !neg := by
  cases neg <;> cases m <;> simp

/-- Claim C1 — with a non-empty selector-string list, `applySelectors`
keeps exactly the scenarios for which at least one selector string
matches (OR), where a string matches when every comma-separated
component matches (AND), a component's match being inverted when its
parsed negation flag is set. -/
theorem applySelectors_or_and_not (scenarios : List ScenarioDefinition)
    (selectorStrings : List Str) (h : selectorStrings ≠ [])
    (sc : ScenarioDefinition) :
    sc ∈ applySelectors scenarios selectorStrings ↔
      sc ∈ scenarios ∧
      ∃ selStr ∈ selectorStrings, ∀ comp ∈ selStr.splitOn ',',
        matchSelector sc (parseSelector (trim comp)) =
          !(parseSelector (trim comp)).negated := by
  have hne : selectorStrings.isEmpty = false := by
    cases selectorStrings with
    | nil => exact absurd rfl h
    | cons a as => rfl
  unfold applySelectors
  rw [hne]
  simp only [Bool.false_eq_true, if_false, List.mem_filter,
    List.any_eq_true, List.all_eq_true, List.mem_map]
  constructor
  · rintro ⟨hmem, selStr, hsel, hall⟩
    refine ⟨hmem, selStr, hsel, fun comp hcomp => ?_⟩
    exact (negCheck _ _).mp
      (hall (parseSelector (trim comp)) ⟨comp, hcomp, rfl⟩)
  · rintro ⟨hmem, selStr, hsel, hall⟩
    refine ⟨hmem, selStr, hsel, ?_⟩
    rintro selector ⟨comp, hcomp, rfl⟩
    exact (negCheck _ _).mpr (hall comp hcomp)

theorem strListOf_cons_of_none (e : JValue) (es : List JValue)
    (h : strOf e = none) : strListOf (e :: es) = none := by
  cases hr : strListOf es <;> simp [strListOf, h, hr]

theorem strListOf_iff (elems : List JValue) (xs : List Str) :
    strListOf elems = some xs ↔ elems = xs.map JValue.str := by
  induction elems generalizing xs with
  | nil =>
    cases xs <;> simp [strListOf]
  | cons e es ih =>
    cases e with
    | str a =>
      have hstep : strListOf (JValue.str a :: es) =
          match strListOf es with
          | some ss => some (a :: ss)
          | none => none := by
        cases hr : strListOf es <;> simp [strListOf, strOf, hr]
      rw [hstep]
      cases hr : strListOf es with
      | none =>
        constructor
        · intro h; cases h
        · intro h
          cases xs with
          | nil => cases h
          | cons y ys =>
            simp only [List.map_cons, List.cons.injEq] at h
            have hx := (ih ys).mpr h.2
            rw [hr] at hx
            cases hx
      | some ss =>
        constructor
        · intro h
          injection h with h1
          subst h1
          rw [List.map_cons, (ih ss).mp hr]
        · intro h
          cases xs with
          | nil => cases h
          | cons y ys =>
            simp only [List.map_cons, List.cons.injEq] at h
            obtain ⟨ha, hes⟩ := h
            have hx := (ih ys).mpr hes
            rw [hr] at hx
            injection hx with h2
            injection ha with ha'
            rw [ha', h2]
    | null =>
      rw [strListOf_cons_of_none JValue.null es rfl]
      cases xs <;> simp
    | bool b =>
      rw [strListOf_cons_of_none (JValue.bool b) es rfl]
      cases xs <;> simp
    | num q =>
      rw [strListOf_cons_of_none (JValue.num q) es rfl]
      cases xs <;> simp
    | arr a =>
      rw [strListOf_cons_of_none (JValue.arr a) es rfl]
      cases xs <;> simp
    | obj f =>
      rw [strListOf_cons_of_none (JValue.obj f) es rfl]
      cases xs <;> simp

theorem asStrArray_eq_some (ov : Option JValue) (xs : List Str) :
    asStrArray ov = some xs ↔ ov = some (.arr (xs.map JValue.str)) := by
  cases ov with
  | none => simp [asStrArray]
  | some v =>
    cases v with
    | arr elems => simp [asStrArray, strListOf_iff]
    | null => simp [asStrArray]
    | bool b => simp [asStrArray]
    | num q => simp [asStrArray]
    | str s => simp [asStrArray]
    | obj f => simp [asStrArray]

/-- Witness for `applySelectors_or_and_not`: one scenario and the
selector string `tag:api`. -/
theorem applySelectors_or_and_not_witness :
    let sc : ScenarioDefinition := ⟨"a".toList, ["api".toList], none⟩
    sc ∈ applySelectors [sc] ["tag:api".toList] ↔
      sc ∈ [sc] ∧
      ∃ selStr ∈ ["tag:api".toList], ∀ comp ∈ selStr.splitOn ',',
        matchSelector sc (parseSelector (trim comp)) =
          !(parseSelector (trim comp)).negated :=
  applySelectors_or_and_not [⟨"a".toList, ["api".toList], none⟩]
    ["tag:api".toList] (by simp) ⟨"a".toList, ["api".toList], none⟩

/-- Claim C9, counterexample — a readable configuration file whose
contents are the valid JSON(C) document `null` makes `loadConfig` throw
a `TypeError` (reading `.probitas` off `null`), which is neither a read
failure nor a JSON syntax error. -/
theorem loadConfig_null_counterexample :
    loadConfig (ConfigSource.parsed JValue.null) =
      Except.error LoadError.typeError := rfl

/-- Claim C9, amended — wrong-typed fields in the `probitas` section
never make `loadConfig` throw: a reporter outside `{dot, list, json,
tap}`, a non-string-array `includes`/`excludes`/`selectors` and a
non-number `maxConcurrency`/`maxFailures` come back `undefined`;
`loadConfig` throws only when the file cannot be read, when its contents
are not valid JSON(C), or when the parsed top-level value is the JSON
literal `null` (property access on `null` raises a `TypeError`). -/
theorem loadConfig_spec (v : JValue) (fields : List (Str × JValue))
    (r : Str) (xs : List Str) (q : ℚ) :
    loadConfig .unreadable = Except.error .readError ∧
    loadConfig .invalidJson = Except.error .syntaxError ∧
    (v = .null ∨ ∃ c, loadConfig (.parsed v) = Except.ok c) ∧
    ((parseProbitasConfig (.obj fields)).reporter = some r ↔
      jsLookup fields ("reporter".toList) = some (.str r) ∧
        r ∈ reporterNames) ∧
    ((parseProbitasConfig (.obj fields)).includes = some xs ↔
      jsLookup fields ("includes".toList) = some (.arr (xs.map .str))) ∧
    ((parseProbitasConfig (.obj fields)).excludes = some xs ↔
      jsLookup fields ("excludes".toList) = some (.arr (xs.map .str))) ∧
    ((parseProbitasConfig (.obj fields)).selectors = some xs ↔
      jsLookup fields ("selectors".toList) = some (.arr (xs.map .str))) ∧
    ((parseProbitasConfig (.obj fields)).maxConcurrency = some q ↔
      jsLookup fields ("maxConcurrency".toList) = some (.num q)) ∧
    ((parseProbitasConfig (.obj fields)).maxFailures = some q ↔
      jsLookup fields ("maxFailures".toList) = some (.num q)) := by
  refine ⟨rfl, rfl, ?_, ?_, ?_, ?_, ?_, ?_, ?_⟩
  · cases v with
    | null => exact Or.inl rfl
    | bool b => exact Or.inr ⟨_, rfl⟩
    | num q' => exact Or.inr ⟨_, rfl⟩
    | str s => exact Or.inr ⟨_, rfl⟩
    | arr a => exact Or.inr ⟨_, rfl⟩
    | obj f => exact Or.inr ⟨_, rfl⟩
  · show (match jsLookup fields ("reporter".toList) with
      | some (.str r') => if r' ∈ reporterNames then some r' else none
      | _ => none) = some r ↔ _
    cases hlook : jsLookup fields ("reporter".toList) with
    | none => simp
    | some jv =>
      cases jv with
      | str r' =>
        show (if r' ∈ reporterNames then some r' else none) = some r ↔ _
        by_cases hr : r' ∈ reporterNames
        · rw [if_pos hr]
          constructor
          · intro h
            injection h with h1
            subst h1
            exact ⟨rfl, hr⟩
          · rintro ⟨h1, _⟩
            injection h1 with h2
            injection h2 with h3
            rw [h3]
        · rw [if_neg hr]
          constructor
          · intro h; cases h
          · rintro ⟨h1, hmem⟩
            injection h1 with h2
            injection h2 with h3
            exact absurd (h3 ▸ hmem) hr
      | null => simp
      | bool b => simp
      | num q' => simp
      | arr a => simp
      | obj f => simp
  · show asStrArray (jsLookup fields ("includes".toList)) = some xs ↔ _
    exact asStrArray_eq_some _ xs
  · show asStrArray (jsLookup fields ("excludes".toList)) = some xs ↔ _
    exact asStrArray_eq_some _ xs
  · show asStrArray (jsLookup fields ("selectors".toList)) = some xs ↔ _
    exact asStrArray_eq_some _ xs
  · show (match jsLookup fields ("maxConcurrency".toList) with
      | some (.num q') => some q'
      | _ => none) = some q ↔ _
    cases hlook : jsLookup fields ("maxConcurrency".toList) with
    | none => simp
    | some jv =>
      cases jv with
      | num q' => simp
      | null => simp
      | bool b => simp
      | str s => simp
      | arr a => simp
      | obj f => simp
  · show (match jsLookup fields ("maxFailures".toList) with
      | some (.num q') => some q'
      | _ => none) = some q ↔ _
    cases hlook : jsLookup fields ("maxFailures".toList) with
    | none => simp
    | some jv =>
      cases jv with
      | num q' => simp
      | null => simp
      | bool b => simp
      | str s => simp
      | arr a => simp
      | obj f => simp

theorem validTail_nonWS (c : Char) (h : validTail c = true) :
    nonWS c = true := by
  unfold validTail at h
  simp only [Bool.and_eq_true] at h
  exact h.1.1

theorem srcHere_shape (x : Str) (h : srcHere x = true) :
    ∃ d rest, x = '/' :: 's' :: 'r' :: 'c' :: '/' :: d :: rest ∧
      validTail d = true := by
  rcases x with _ | ⟨a, _ | ⟨b, _ | ⟨c, _ | ⟨d, _ | ⟨e, _ | ⟨f, rest⟩⟩⟩⟩⟩⟩
  · simp [srcHere] at h
  · simp [srcHere] at h
  · simp [srcHere] at h
  · simp [srcHere] at h
  · simp [srcHere] at h
  · simp [srcHere] at h
  · unfold srcHere at h
    simp only [Bool.and_eq_true, decide_eq_true_eq] at h
    obtain ⟨⟨⟨⟨⟨ha, hb⟩, hc⟩, hd⟩, he⟩, hf⟩ := h
    subst ha; subst hb; subst hc; subst hd; subst he
    exact ⟨f, rest, rfl, hf⟩

theorem srcHere_src (d : Char) (rest : Str) :
    srcHere ('/' :: 's' :: 'r' :: 'c' :: '/' :: d :: rest) = validTail d := by
  simp [srcHere]

theorem srcHere_length (x : Str) (h : srcHere x = true) : 6 ≤ x.length := by
  obtain ⟨d, rest, rfl, _⟩ := srcHere_shape x h
  simp

theorem srcHere_append_left (a b : Str) (h : 6 ≤ a.length) :
    srcHere (a ++ b) = srcHere a := by
  rcases a with _ | ⟨c0, _ | ⟨c1, _ | ⟨c2, _ | ⟨c3, _ | ⟨c4, _ | ⟨c5, rest⟩⟩⟩⟩⟩⟩
  · simp at h
  · simp at h
  · simp at h
  · simp at h
  · simp at h
  · simp at h
  · rfl

theorem srcHere_take_nonWS (x : Str) (h : srcHere x = true) :
    ((x.take 6).all nonWS) = true := by
  obtain ⟨d, rest, rfl, hd⟩ := srcHere_shape x h
  have h1 : nonWS d = true := validTail_nonWS d hd
  simp [List.all_cons, h1]
  decide

theorem findK_sound (t : Str) (k : Nat) (h : findK t = some k) :
    ((t.take k).all nonWS) = true ∧ srcHere (t.drop k) = true := by
  induction t generalizing k with
  | nil => cases h
  | cons c rest ih =>
    unfold findK at h
    by_cases hc : jsSpace c = true
    · rw [if_pos hc] at h; cases h
    · rw [if_neg hc] at h
      cases hr : findK rest with
      | some k1 =>
        rw [hr] at h
        injection h with h1
        subst h1
        obtain ⟨h2, h3⟩ := ih k1 hr
        refine ⟨?_, by simpa using h3⟩
        rw [List.take_succ_cons, List.all_cons, Bool.and_eq_true]
        exact ⟨by simp [nonWS, hc], h2⟩
      | none =>
        rw [hr] at h
        by_cases hs : srcHere (c :: rest) = true
        · rw [if_pos hs] at h
          injection h with h1
          subst h1
          exact ⟨rfl, hs⟩
        · rw [if_neg hs] at h
          cases h

theorem findK_none_no_reach (t : Str) (h : findK t = none) (j : Nat)
    (h1 : (t.take j).all nonWS = true) (h2 : srcHere (t.drop j) = true) :
    False := by
  induction t generalizing j with
  | nil =>
    rw [List.drop_nil] at h2
    simp [srcHere] at h2
  | cons c rest ih =>
    unfold findK at h
    by_cases hc : jsSpace c = true
    · cases j with
      | zero =>
        rw [List.drop_zero] at h2
        obtain ⟨d, r2, he, _⟩ := srcHere_shape _ h2
        injection he with he1 _
        rw [he1] at hc
        exact absurd hc (by decide)
      | succ j1 =>
        rw [List.take_succ_cons, List.all_cons, Bool.and_eq_true] at h1
        have hn : nonWS c = true := h1.1
        simp [nonWS, hc] at hn
    · rw [if_neg hc] at h
      cases hr : findK rest with
      | some k1 => rw [hr] at h; cases h
      | none =>
        rw [hr] at h
        by_cases hs : srcHere (c :: rest) = true
        · rw [if_pos hs] at h; cases h
        · cases j with
          | zero => exact hs (by simpa using h2)
          | succ j1 =>
            rw [List.take_succ_cons, List.all_cons, Bool.and_eq_true] at h1
            rw [List.drop_succ_cons] at h2
            exact ih hr j1 h1.2 h2

theorem findK_max (t : Str) (k : Nat) (h : findK t = some k) (j : Nat)
    (h1 : (t.take j).all nonWS = true) (h2 : srcHere (t.drop j) = true) :
    j ≤ k := by
  induction t generalizing k j with
  | nil => cases h
  | cons c rest ih =>
    unfold findK at h
    by_cases hc : jsSpace c = true
    · rw [if_pos hc] at h; cases h
    · rw [if_neg hc] at h
      cases hr : findK rest with
      | some k1 =>
        rw [hr] at h
        injection h with hk
        subst hk
        cases j with
        | zero => exact Nat.zero_le _
        | succ j1 =>
          rw [List.take_succ_cons, List.all_cons, Bool.and_eq_true] at h1
          rw [List.drop_succ_cons] at h2
          exact Nat.succ_le_succ (ih k1 hr j1 h1.2 h2)
      | none =>
        rw [hr] at h
        by_cases hs : srcHere (c :: rest) = true
        · rw [if_pos hs] at h
          injection h with hk
          subst hk
          cases j with
          | zero => exact le_refl 0
          | succ j1 =>
            rw [List.take_succ_cons, List.all_cons, Bool.and_eq_true] at h1
            rw [List.drop_succ_cons] at h2
            exact absurd (findK_none_no_reach rest hr j1 h1.2 h2) not_false
        · rw [if_neg hs] at h
          cases h

theorem reach_iff_findK (t : Str) : reach t ↔ findK t ≠ none := by
  constructor
  · rintro ⟨j, h1, h2⟩ hn
    exact findK_none_no_reach t hn j h1 h2
  · intro hn
    cases hr : findK t with
    | none => exact absurd hr hn
    | some k =>
      obtain ⟨h1, h2⟩ := findK_sound t k hr
      exact ⟨k, h1, h2⟩

theorem matchHere_prefix (t : Str) :
    matchHere (fileSeg ++ t) =
      match findK t with
      | none => none
      | some k =>
        some ('s' :: 'r' :: 'c' :: '/' :: (t.drop (k + 5)).takeWhile validTail,
          (t.drop (k + 5)).dropWhile validTail) := rfl

theorem matchHere_some_shape (w g after : Str)
    (h : matchHere w = some (g, after)) :
    ∃ k X gt, w = fileSeg ++ (X ++ (srcSeg ++ (gt ++ after))) ∧
      findK (X ++ (srcSeg ++ (gt ++ after))) = some k ∧
      X.length = k ∧ X.all nonWS = true ∧ gt.all validTail = true ∧
      gt ≠ [] ∧ g = grpSeg ++ gt ∧
      (after = [] ∨ ∃ d r, after = d :: r ∧ validTail d = false) := by
  unfold matchHere at h
  split at h
  next t =>
    cases hk : findK t with
    | none => rw [hk] at h; cases h
    | some k =>
      rw [hk] at h
      injection h with h1
      rw [Prod.mk.injEq] at h1
      obtain ⟨hg, hafter⟩ := h1
      obtain ⟨hall, hsrc⟩ := findK_sound t k hk
      obtain ⟨d, r, hdk, hd⟩ := srcHere_shape _ hsrc
      have hklen : k ≤ t.length := by
        by_contra hlt
        push_neg at hlt
        rw [List.drop_eq_nil_of_le (le_of_lt hlt)] at hdk
        cases hdk
      have hu : t.drop (k + 5) = d :: r := by
        rw [← List.drop_drop 5 k t, hdk]
        rfl
      have hafter2 : after = List.dropWhile validTail r := by
        rw [← hafter, hu, List.dropWhile_cons_of_pos hd]
      have hgt : List.takeWhile validTail (t.drop (k + 5)) =
          d :: List.takeWhile validTail r := by
        rw [hu, List.takeWhile_cons_of_pos hd]
      have hdr : d :: r = (d :: List.takeWhile validTail r) ++ after := by
        rw [hafter2, List.cons_append, List.takeWhile_append_dropWhile]
      have htdec : t = t.take k ++
          (srcSeg ++ ((d :: List.takeWhile validTail r) ++ after)) := by
        conv_lhs => rw [← List.take_append_drop k t]
        rw [hdk, hdr]
        rfl
      refine ⟨k, t.take k, d :: List.takeWhile validTail r, ?_, ?_, ?_, hall,
        ?_, ?_, ?_, ?_⟩
      · show fileSeg ++ t = _
        rw [← htdec]
      · rw [← htdec]
        exact hk
      · rw [List.length_take]
        omega
      · simp [List.all_cons, hd, List.all_takeWhile]
      · simp
      · rw [← hg, hgt]
        rfl
      · rw [hafter2]
        cases ha : List.dropWhile validTail r with
        | nil => exact Or.inl rfl
        | cons d0 r0 =>
          refine Or.inr ⟨d0, r0, rfl, ?_⟩
          have hh := List.head?_dropWhile_not validTail r
          rw [ha] at hh
          simpa using hh
  next =>
    cases h

theorem findMatch_spec (l : Str) (p : Nat) (g after : Str)
    (h : findMatch l = some (p, g, after)) :
    matchHere (l.drop p) = some (g, after) := by
  induction l generalizing p with
  | nil => cases h
  | cons c rest ih =>
    unfold findMatch at h
    cases hm : matchHere (c :: rest) with
    | some ga =>
      rw [hm] at h
      injection h with h1
      simp only [Prod.mk.injEq] at h1
      obtain ⟨hp, h2, h3⟩ := h1
      subst hp
      rw [List.drop_zero, hm, ← h2, ← h3]
    | none =>
      rw [hm] at h
      cases hf : findMatch rest with
      | none => rw [hf] at h; cases h
      | some x =>
        obtain ⟨x1, x2, x3⟩ := x
        rw [hf] at h
        injection h with h1
        simp only [Prod.mk.injEq] at h1
        obtain ⟨hp, h2, h3⟩ := h1
        subst hp
        subst h2
        subst h3
        rw [List.drop_succ_cons]
        exact ih x1 hf

theorem findMatch_min (l : Str) (p : Nat) (g after : Str)
    (h : findMatch l = some (p, g, after)) (q : Nat) (hq : q < p) :
    matchHere (l.drop q) = none := by
  induction l generalizing p q with
  | nil => cases h
  | cons c rest ih =>
    unfold findMatch at h
    cases hm : matchHere (c :: rest) with
    | some ga =>
      rw [hm] at h
      injection h with h1
      simp only [Prod.mk.injEq] at h1
      obtain ⟨hp, _⟩ := h1
      omega
    | none =>
      rw [hm] at h
      cases hf : findMatch rest with
      | none => rw [hf] at h; cases h
      | some x =>
        obtain ⟨x1, x2, x3⟩ := x
        rw [hf] at h
        injection h with h1
        simp only [Prod.mk.injEq] at h1
        obtain ⟨hp, h2, h3⟩ := h1
        subst h2
        subst h3
        cases q with
        | zero => simpa using hm
        | succ q1 =>
          rw [List.drop_succ_cons]
          exact ih x1 hf q1 (by omega)

theorem findMatch_none_all (l : Str) (h : findMatch l = none) (q : Nat) :
    matchHere (l.drop q) = none := by
  induction l generalizing q with
  | nil =>
    rw [List.drop_nil]
    rfl
  | cons c rest ih =>
    unfold findMatch at h
    cases hm : matchHere (c :: rest) with
    | some ga => rw [hm] at h; cases h
    | none =>
      rw [hm] at h
      cases q with
      | zero => simpa using hm
      | succ q1 =>
        rw [List.drop_succ_cons]
        cases hf : findMatch rest with
        | none => exact ih hf q1
        | some x => rw [hf] at h; cases h

theorem matchHere_after_length (w g after : Str)
    (h : matchHere w = some (g, after)) : after.length < w.length := by
  obtain ⟨k, X, gt, hw, _, _, _, _, hgt, _, _⟩ :=
    matchHere_some_shape w g after h
  rw [hw]
  simp [List.length_append, fileSeg, srcSeg]
  omega

theorem findMatch_after_length (l : Str) (p : Nat) (g after : Str)
    (h : findMatch l = some (p, g, after)) : after.length < l.length := by
  have h1 := matchHere_after_length _ _ _ (findMatch_spec l p g after h)
  have h2 : (l.drop p).length ≤ l.length := by
    rw [List.length_drop]
    omega
  omega

theorem sanitizeFuel_succ (f : Nat) (l : Str) :
    sanitizeFuel (f + 1) l =
      match findMatch l with
      | none => l
      | some (p, g, after) => l.take p ++ g ++ sanitizeFuel f after := rfl

theorem sanitizeFuel_stab (f : Nat) :
    ∀ l : Str, l.length ≤ f → sanitizeFuel (f + 1) l = sanitizeFuel f l := by
  induction f with
  | zero =>
    intro l h
    rw [Nat.le_zero, List.length_eq_zero] at h
    subst h
    rfl
  | succ f ih =>
    intro l h
    rw [sanitizeFuel_succ (f + 1) l, sanitizeFuel_succ f l]
    cases hfm : findMatch l with
    | none => rfl
    | some x =>
      obtain ⟨p, g, after⟩ := x
      have hlt := findMatch_after_length l p g after hfm
      dsimp only
      rw [ih after (by omega)]

theorem sanitizeFuel_of_le (f : Nat) (l : Str) (h : l.length ≤ f) :
    sanitizeFuel f l = sanitizeStack l := by
  unfold sanitizeStack
  induction f with
  | zero =>
    rw [Nat.le_zero, List.length_eq_zero] at h
    subst h
    rfl
  | succ f ih =>
    rcases Nat.lt_or_ge l.length (f + 1) with hlt | hge
    · rw [sanitizeFuel_stab f l (Nat.lt_succ_iff.mp hlt)]
      exact ih (Nat.lt_succ_iff.mp hlt)
    · have he : l.length = f + 1 := le_antisymm h hge
      rw [he]

theorem sanitizeStack_eq (l : Str) :
    sanitizeStack l =
      match findMatch l with
      | none => l
      | some (p, g, after) => l.take p ++ g ++ sanitizeStack after := by
  cases hlen : l.length with
  | zero =>
    rw [List.length_eq_zero] at hlen
    subst hlen
    rfl
  | succ n =>
    unfold sanitizeStack
    rw [hlen, sanitizeFuel_succ n l]
    cases hfm : findMatch l with
    | none => rfl
    | some x =>
      obtain ⟨p, g, after⟩ := x
      have hlt := findMatch_after_length l p g after hfm
      dsimp only
      rw [sanitizeFuel_of_le n after (by omega),
        sanitizeFuel_of_le after.length after (le_refl _)]

theorem reach_append_left (a b : Str) (h : reach a) : reach (a ++ b) := by
  obtain ⟨j, h1, h2⟩ := h
  have h6 : 6 ≤ (a.drop j).length := srcHere_length _ h2
  have hj : j + 6 ≤ a.length := by
    rw [List.length_drop] at h6
    omega
  refine ⟨j, ?_, ?_⟩
  · rw [List.take_append_eq_append_take]
    have hz : j - a.length = 0 := by omega
    rw [hz, List.take_zero, List.append_nil]
    exact h1
  · rw [List.drop_append_eq_append_drop]
    have hz : j - a.length = 0 := by omega
    rw [hz, List.drop_zero, srcHere_append_left _ _ h6]
    exact h2

theorem reach_cons_all (a t : Str) (ha : a.all nonWS = true) (h : reach t) :
    reach (a ++ t) := by
  obtain ⟨j, h1, h2⟩ := h
  refine ⟨a.length + j, ?_, ?_⟩
  · rw [List.take_append_eq_append_take]
    have e1 : a.length + j - a.length = j := by omega
    rw [e1, List.take_of_length_le (by omega), List.all_append, ha, h1]
    rfl
  · rw [List.drop_append_eq_append_drop]
    have e1 : a.length + j - a.length = j := by omega
    rw [e1, List.drop_eq_nil_of_le (by omega), List.nil_append]
    exact h2

theorem reach_here (t : Str) (h : srcHere t = true) : reach t :=
  ⟨0, rfl, by simpa using h⟩

theorem reach_split (c v : Str) (h : reach (c ++ v)) :
    reach c ∨ c.all nonWS = true := by
  obtain ⟨j, h1, h2⟩ := h
  by_cases hj : j + 6 ≤ c.length
  · left
    refine ⟨j, ?_, ?_⟩
    · rw [List.take_append_eq_append_take] at h1
      have hz : j - c.length = 0 := by omega
      rw [hz, List.take_zero, List.append_nil] at h1
      exact h1
    · rw [List.drop_append_eq_append_drop] at h2
      have hz : j - c.length = 0 := by omega
      rw [hz, List.drop_zero] at h2
      rw [← srcHere_append_left (c.drop j) v (by rw [List.length_drop]; omega)]
      exact h2
  · right
    push_neg at hj
    rcases Nat.lt_or_ge j c.length with hlt | hge
    · have htake : (c.take j).all nonWS = true := by
        rw [List.take_append_eq_append_take] at h1
        have hz : j - c.length = 0 := by omega
        rw [hz, List.take_zero, List.append_nil] at h1
        exact h1
      have hdropv : (c ++ v).drop j = c.drop j ++ v := by
        rw [List.drop_append_eq_append_drop]
        have hz : j - c.length = 0 := by omega
        rw [hz, List.drop_zero]
      rw [hdropv] at h2
      have h6 := srcHere_take_nonWS _ h2
      have hdlen : (c.drop j).length = c.length - j := List.length_drop j c
      have hdrop : (c.drop j).all nonWS = true := by
        have he : c.drop j = ((c.drop j ++ v).take 6).take (c.length - j) := by
          rw [List.take_take]
          have hm : min (c.length - j) 6 = c.length - j := by omega
          rw [hm, List.take_append_eq_append_take]
          have hz : c.length - j - (c.drop j).length = 0 := by omega
          rw [hz, List.take_zero, List.append_nil,
            List.take_of_length_le (by omega)]
        rw [he, List.all_eq_true]
        intro ch hch
        have hmem : ch ∈ (c.drop j ++ v).take 6 := List.take_subset _ _ hch
        rw [List.all_eq_true] at h6
        exact h6 ch hmem
      have hsplit : c = c.take j ++ c.drop j := (List.take_append_drop j c).symm
      rw [hsplit, List.all_append, htake, hdrop]
      rfl
    · rw [List.take_append_eq_append_take, List.take_of_length_le hge,
        List.all_append, Bool.and_eq_true] at h1
      exact h1.1

theorem sanitizeStack_peel (w : Str) (c : Char) (rest : Str) (hc : c ≠ 's')
    (h : sanitizeStack w = c :: rest) :
    ∃ w1, w = c :: w1 ∧ sanitizeStack w1 = rest ∧ matchHere w = none := by
  rw [sanitizeStack_eq] at h
  cases hfm : findMatch w with
  | none =>
    rw [hfm] at h
    dsimp only at h
    refine ⟨rest, h, ?_, ?_⟩
    · have hfr : findMatch rest = none := by
        rw [h] at hfm
        unfold findMatch at hfm
        cases hm : matchHere (c :: rest) with
        | some ga => rw [hm] at hfm; cases hfm
        | none =>
          rw [hm] at hfm
          rw [Option.map_eq_none'] at hfm
          exact hfm
      rw [sanitizeStack_eq, hfr]
    · have h0 := findMatch_none_all w hfm 0
      simpa using h0
  | some x =>
    obtain ⟨p, g, after⟩ := x
    rw [hfm] at h
    dsimp only at h
    cases p with
    | zero =>
      exfalso
      have hmh := findMatch_spec w 0 g after hfm
      rw [List.drop_zero] at hmh
      obtain ⟨k, X, gt, hw, _, _, _, _, _, hg, _⟩ :=
        matchHere_some_shape _ _ _ hmh
      rw [List.take_zero, List.nil_append, hg] at h
      simp only [grpSeg, List.cons_append, List.nil_append] at h
      injection h with h0 _
      exact hc h0.symm
    | succ p1 =>
      cases w with
      | nil => cases hfm
      | cons w0 w1 =>
        rw [List.take_succ_cons, List.cons_append, List.cons_append] at h
        injection h with h0 hrest
        subst h0
        have hmz : matchHere (w0 :: w1) = none := by
          have h0 := findMatch_min _ _ _ _ hfm 0 (Nat.succ_pos p1)
          simpa using h0
        refine ⟨w1, rfl, ?_, hmz⟩
        have hf1 : findMatch w1 = some (p1, g, after) := by
          unfold findMatch at hfm
          rw [hmz] at hfm
          cases hx : findMatch w1 with
          | none => rw [hx] at hfm; cases hfm
          | some y =>
            obtain ⟨y1, y2, y3⟩ := y
            rw [hx] at hfm
            injection hfm with h1
            simp only [Prod.mk.injEq] at h1
            obtain ⟨e1, e2, e3⟩ := h1
            have hy : y1 = p1 := by omega
            rw [hy, e2, e3]
        rw [sanitizeStack_eq, hf1, ← hrest]

theorem reach_sanitize (x : Str) (h : reach (sanitizeStack x)) : reach x := by
  rw [sanitizeStack_eq] at h
  cases hfm : findMatch x with
  | none =>
    rw [hfm] at h
    exact h
  | some y =>
    obtain ⟨p, g, after⟩ := y
    rw [hfm] at h
    dsimp only at h
    rw [List.append_assoc] at h
    rcases reach_split _ _ h with h1 | h1
    · have h2 := reach_append_left (x.take p) (x.drop p) h1
      rwa [List.take_append_drop] at h2
    · have hmh := findMatch_spec x p g after hfm
      obtain ⟨k, X, gt, hw, hfk, hXlen, hXall, hgtall, hgtne, hg, hhead⟩ :=
        matchHere_some_shape _ _ _ hmh
      have hr : reach (x.drop p) := by
        rw [hw]
        refine reach_cons_all fileSeg _ (by decide) ?_
        refine reach_cons_all X _ hXall ?_
        obtain ⟨d, gt1, rfl⟩ : ∃ d gt1, gt = d :: gt1 := by
          cases gt with
          | nil => exact absurd rfl hgtne
          | cons d g1 => exact ⟨d, g1, rfl⟩
        refine reach_here _ ?_
        show srcHere ('/' :: 's' :: 'r' :: 'c' :: '/' :: d :: (gt1 ++ after))
          = true
        rw [srcHere_src]
        rw [List.all_cons, Bool.and_eq_true] at hgtall
        exact hgtall.1
      have h2 := reach_cons_all (x.take p) (x.drop p) h1 hr
      rwa [List.take_append_drop] at h2

theorem drop_append_exact (a b : Str) (n : Nat) (h : a.length ≤ n) :
    (a ++ b).drop n = b.drop (n - a.length) := by
  rw [List.drop_append_eq_append_drop, List.drop_eq_nil_of_le h,
    List.nil_append]

theorem take_append_exact (a b : Str) (n : Nat) (h : a.length ≤ n) :
    (a ++ b).take n = a ++ b.take (n - a.length) := by
  rw [List.take_append_eq_append_take, List.take_of_length_le h]

theorem all_validTail_nonWS (l : Str) (h : l.all validTail = true) :
    l.all nonWS = true := by
  rw [List.all_eq_true] at h ⊢
  exact fun x hx => validTail_nonWS x (h x hx)

theorem reach_body (X gt after : Str) (hX : X.all nonWS = true)
    (hgt : gt.all validTail = true) (hne : gt ≠ []) :
    reach (fileSeg ++ (X ++ (srcSeg ++ (gt ++ after)))) := by
  refine reach_cons_all fileSeg _ (by decide) ?_
  refine reach_cons_all X _ hX ?_
  obtain ⟨d, gt1, rfl⟩ : ∃ d gt1, gt = d :: gt1 := by
    cases gt with
    | nil => exact absurd rfl hne
    | cons d g1 => exact ⟨d, g1, rfl⟩
  refine reach_here _ ?_
  show srcHere ('/' :: 's' :: 'r' :: 'c' :: '/' :: d :: (gt1 ++ after)) = true
  rw [srcHere_src]
  rw [List.all_cons, Bool.and_eq_true] at hgt
  exact hgt.1

theorem findMatch_of_matchHere_drop (x : Str) (i : Nat) (ga : Str × Str)
    (h : matchHere (x.drop i) = some ga) : findMatch x ≠ none := by
  intro hnone
  rw [findMatch_none_all x hnone i] at h
  cases h

theorem findMatch_sanitize_none (l : Str) :
    findMatch (sanitizeStack l) = none := by
  cases hfm : findMatch l with
  | none =>
    have hsan : sanitizeStack l = l := by
      rw [sanitizeStack_eq, hfm]
    rw [hsan]
    exact hfm
  | some z =>
    obtain ⟨p, g, after⟩ := z
    have hsan : sanitizeStack l = l.take p ++ g ++ sanitizeStack after := by
      rw [sanitizeStack_eq, hfm]
    rw [hsan]
    have hmh0 : matchHere (l.drop p) = some (g, after) :=
      findMatch_spec l p g after hfm
    obtain ⟨k, X, gt, hw0, hfk0, hXlen, hXall, hgtall, hgtne, hg0, hhead0⟩ :=
      matchHere_some_shape _ _ _ hmh0
    have hplt : p < l.length := by
      by_contra hge
      push_neg at hge
      rw [List.drop_eq_nil_of_le hge] at hw0
      simp [fileSeg] at hw0
    have htp : (l.take p).length = p := by
      rw [List.length_take]
      omega
    have hgtpos : 1 ≤ gt.length := List.length_pos.mpr hgtne
    have hglen : g.length = 4 + gt.length := by
      rw [hg0]
      simp only [List.length_append, grpSeg, List.length_cons, List.length_nil]
    have hgtnws : gt.all nonWS = true := all_validTail_nonWS gt hgtall
    have hafterlen := findMatch_after_length l p g after hfm
    cases hq : findMatch (l.take p ++ g ++ sanitizeStack after) with
    | none => rfl
    | some z2 =>
      exfalso
      obtain ⟨q, g2, a2⟩ := z2
      have hmh : matchHere ((l.take p ++ g ++ sanitizeStack after).drop q) =
          some (g2, a2) := findMatch_spec _ q g2 a2 hq
      obtain ⟨k2, X2, gt2, hw2, hfk2, _, _, _, _, _, _⟩ :=
        matchHere_some_shape _ _ _ hmh
      have hreachm : reach (X2 ++ (srcSeg ++ (gt2 ++ a2))) := by
        rw [reach_iff_findK, hfk2]
        simp
      have hassoc : l.take p ++ g ++ sanitizeStack after =
          l.take p ++ (g ++ sanitizeStack after) := List.append_assoc _ _ _
      by_cases hq1 : q + 8 ≤ p
      · -- region (i): the new `file:///` lies inside the copied prefix
        have hA : (l.take p ++ g ++ sanitizeStack after).drop q =
            (l.take p).drop q ++ (g ++ sanitizeStack after) := by
          rw [hassoc, List.drop_append_eq_append_drop]
          have hz : q - (l.take p).length = 0 := by omega
          rw [hz, List.drop_zero]
        have hAlen : ((l.take p).drop q).length = p - q := by
          rw [List.length_drop, htp]
        have hAgv : (l.take p).drop q ++ (g ++ sanitizeStack after) =
            fileSeg ++ (X2 ++ (srcSeg ++ (gt2 ++ a2))) := by
          rw [← hA, hw2]
        have hAtake : ((l.take p).drop q).take 8 = fileSeg := by
          have hcg := congrArg (List.take 8) hAgv
          rw [take_append_exact fileSeg _ 8 (by simp [fileSeg])] at hcg
          have hz2 : (8 : Nat) - fileSeg.length = 0 := by simp [fileSeg]
          rw [hz2, List.take_zero, List.append_nil,
            List.take_append_eq_append_take] at hcg
          have hz1 : 8 - ((l.take p).drop q).length = 0 := by omega
          rw [hz1, List.take_zero, List.append_nil] at hcg
          exact hcg
        have hAeq : (l.take p).drop q =
            fileSeg ++ ((l.take p).drop q).drop 8 := by
          conv_lhs => rw [← List.take_append_drop 8 ((l.take p).drop q)]
          rw [hAtake]
        have hmeq : X2 ++ (srcSeg ++ (gt2 ++ a2)) =
            ((l.take p).drop q).drop 8 ++ (g ++ sanitizeStack after) := by
          have hcg := congrArg (List.drop 8) hAgv
          rw [List.drop_append_eq_append_drop,
            drop_append_exact fileSeg _ 8 (by simp [fileSeg])] at hcg
          have hz1 : 8 - ((l.take p).drop q).length = 0 := by omega
          rw [hz1, List.drop_zero] at hcg
          have hz2 : 8 - fileSeg.length = 0 := by simp [fileSeg]
          rw [hz2, List.drop_zero] at hcg
          exact hcg.symm
        have hA8 : ((l.take p).drop q).drop 8 = (l.take p).drop (q + 8) := by
          rw [List.drop_drop, Nat.add_comm]
        have hcontra : reach ((l.take p).drop (q + 8) ++ l.drop p) → False := by
          intro hreach
          have hmin := findMatch_min l p g after hfm q (by omega)
          have hlq : l.drop q =
              fileSeg ++ ((l.take p).drop (q + 8) ++ l.drop p) := by
            conv_lhs => rw [← List.take_append_drop p l]
            rw [List.drop_append_eq_append_drop, htp]
            have hz : q - p = 0 := by omega
            rw [hz, List.drop_zero, ← List.append_assoc]
            congr 1
            rw [← hA8]
            exact hAeq
          rw [hlq, matchHere_prefix] at hmin
          have hfk3 := (reach_iff_findK _).mp hreach
          cases hfkc : findK ((l.take p).drop (q + 8) ++ l.drop p) with
          | none => exact hfk3 hfkc
          | some k3 =>
            rw [hfkc] at hmin
            dsimp only at hmin
            cases hmin
        rcases reach_split (((l.take p).drop q).drop 8)
            (g ++ sanitizeStack after) (by rw [← hmeq]; exact hreachm)
          with hs | hs
        · refine hcontra ?_
          rw [← hA8]
          exact reach_append_left _ _ hs
        · refine hcontra ?_
          rw [hw0, ← hA8]
          exact reach_cons_all _ _ hs (reach_body X gt after hXall hgtall hgtne)
      · by_cases hq2 : q ≤ p
        · -- region (ii): the new occurrence would overlap the group head
          have hdpu : (l.take p ++ g ++ sanitizeStack after).drop p =
              g ++ sanitizeStack after := by
            rw [hassoc, List.drop_append_eq_append_drop, htp, Nat.sub_self,
              List.drop_zero, List.drop_eq_nil_of_le (le_of_eq htp),
              List.nil_append]
          have hdq : (l.take p ++ g ++ sanitizeStack after).drop p =
              ((l.take p ++ g ++ sanitizeStack after).drop q).drop (p - q) := by
            rw [List.drop_drop]
            congr 1
            omega
          have heq : g ++ sanitizeStack after =
              fileSeg.drop (p - q) ++ (X2 ++ (srcSeg ++ (gt2 ++ a2))) := by
            rw [← hdpu, hdq, hw2, List.drop_append_eq_append_drop]
            have hz : p - q - fileSeg.length = 0 := by
              simp only [fileSeg, List.length_cons, List.length_nil]
              omega
            rw [hz, List.drop_zero]
          obtain ⟨i, hidef⟩ : ∃ i, i = p - q := ⟨p - q, rfl⟩
          rw [← hidef] at heq
          have hi8 : i < 8 := by omega
          rw [hg0] at heq
          interval_cases i <;> simp [grpSeg, fileSeg] at heq
        · by_cases hq3 : q < p + g.length
          · -- region (iii): the new occurrence starts inside the group
            have hpq : p < q := by omega
            have hdq3 : (l.take p ++ g ++ sanitizeStack after).drop q =
                g.drop (q - p) ++ sanitizeStack after := by
              rw [List.drop_append_eq_append_drop]
              have hz : q - (l.take p ++ g).length = 0 := by
                simp only [List.length_append, htp]
                omega
              rw [hz, List.drop_zero]
              congr 1
              rw [List.drop_append_eq_append_drop,
                List.drop_eq_nil_of_le (by rw [htp]; omega),
                List.nil_append, htp]
            have heq3 : fileSeg ++ (X2 ++ (srcSeg ++ (gt2 ++ a2))) =
                g.drop (q - p) ++ sanitizeStack after := by
              rw [← hw2, hdq3]
            have hrlen : (g.drop (q - p)).length = g.length - (q - p) :=
              List.length_drop _ _
            by_cases hr5 : 5 ≤ g.length - (q - p)
            · have h5 : (fileSeg ++ (X2 ++ (srcSeg ++ (gt2 ++ a2)))).take 5 =
                  (g.drop (q - p)).take 5 := by
                rw [heq3, List.take_append_eq_append_take]
                have hz : 5 - (g.drop (q - p)).length = 0 := by omega
                rw [hz, List.take_zero, List.append_nil]
              have h5l : (fileSeg ++ (X2 ++ (srcSeg ++ (gt2 ++ a2)))).take 5 =
                  ['f', 'i', 'l', 'e', ':'] := by
                rw [List.take_append_eq_append_take]
                simp [fileSeg]
              have hcolon : ':' ∈ g := by
                have hmem : ':' ∈ (g.drop (q - p)).take 5 := by
                  rw [← h5, h5l]
                  decide
                exact List.drop_subset _ _ (List.take_subset _ _ hmem)
              rw [hg0, List.mem_append] at hcolon
              rcases hcolon with hc1 | hc2
              · simp [grpSeg] at hc1
              · rw [List.all_eq_true] at hgtall
                have hv2 := hgtall ':' hc2
                simp [validTail] at hv2
            · obtain ⟨r, hrdef⟩ : ∃ r, r = g.length - (q - p) := ⟨_, rfl⟩
              have hr1 : 1 ≤ r := by omega
              have hr4 : r ≤ 4 := by omega
              have hvm : sanitizeStack after =
                  fileSeg.drop r ++ (X2 ++ (srcSeg ++ (gt2 ++ a2))) := by
                have hcg := congrArg (List.drop r) heq3
                rw [List.drop_append_eq_append_drop,
                  drop_append_exact (g.drop (q - p)) _ r (by omega)] at hcg
                have hz1 : r - fileSeg.length = 0 := by
                  simp only [fileSeg, List.length_cons, List.length_nil]
                  omega
                rw [hz1, List.drop_zero] at hcg
                have hz2 : r - (g.drop (q - p)).length = 0 := by omega
                rw [hz2, List.drop_zero] at hcg
                exact hcg.symm
              interval_cases r
              · have hpe : sanitizeStack after =
                    'i' :: (['l', 'e', ':', '/', '/', '/'] ++
                      (X2 ++ (srcSeg ++ (gt2 ++ a2)))) := by
                  rw [hvm]
                  rfl
                obtain ⟨a1, hae, _, _⟩ :=
                  sanitizeStack_peel after 'i' _ (by decide) hpe
                rcases hhead0 with h0 | ⟨d0, r0, hde, hdv⟩
                · rw [h0] at hae
                  cases hae
                · rw [hde] at hae
                  injection hae with he1 _
                  rw [he1] at hdv
                  exact absurd hdv (by decide)
              · have hpe : sanitizeStack after =
                    'l' :: (['e', ':', '/', '/', '/'] ++
                      (X2 ++ (srcSeg ++ (gt2 ++ a2)))) := by
                  rw [hvm]
                  rfl
                obtain ⟨a1, hae, _, _⟩ :=
                  sanitizeStack_peel after 'l' _ (by decide) hpe
                rcases hhead0 with h0 | ⟨d0, r0, hde, hdv⟩
                · rw [h0] at hae
                  cases hae
                · rw [hde] at hae
                  injection hae with he1 _
                  rw [he1] at hdv
                  exact absurd hdv (by decide)
              · have hpe : sanitizeStack after =
                    'e' :: ([':', '/', '/', '/'] ++
                      (X2 ++ (srcSeg ++ (gt2 ++ a2)))) := by
                  rw [hvm]
                  rfl
                obtain ⟨a1, hae, _, _⟩ :=
                  sanitizeStack_peel after 'e' _ (by decide) hpe
                rcases hhead0 with h0 | ⟨d0, r0, hde, hdv⟩
                · rw [h0] at hae
                  cases hae
                · rw [hde] at hae
                  injection hae with he1 _
                  rw [he1] at hdv
                  exact absurd hdv (by decide)
              · -- r = 4: the suffix continues `:///` and maximality is violated
                have hpe : sanitizeStack after =
                    ':' :: ('/' :: '/' :: '/' ::
                      (X2 ++ (srcSeg ++ (gt2 ++ a2)))) := by
                  rw [hvm]
                  rfl
                obtain ⟨a1, hae1, hs1, _⟩ :=
                  sanitizeStack_peel after ':' _ (by decide) hpe
                obtain ⟨b2, hae2, hs2, _⟩ :=
                  sanitizeStack_peel a1 '/' _ (by decide) hs1
                obtain ⟨b3, hae3, hs3, _⟩ :=
                  sanitizeStack_peel b2 '/' _ (by decide) hs2
                obtain ⟨b4, hae4, hs4, _⟩ :=
                  sanitizeStack_peel b3 '/' _ (by decide) hs3
                have hreach4 : reach b4 :=
                  reach_sanitize b4 (by rw [hs4]; exact hreachm)
                obtain ⟨j4, hj1, hj2⟩ := hreach4
                have hafter4 : after = ':' :: '/' :: '/' :: '/' :: b4 := by
                  rw [hae1, hae2, hae3, hae4]
                have hTdrop : (X ++ (srcSeg ++ (gt ++ after))).drop
                    (k + 5 + gt.length + 4 + j4) = b4.drop j4 := by
                  rw [drop_append_exact X _ _ (by omega)]
                  have e1 : k + 5 + gt.length + 4 + j4 - X.length =
                      5 + (gt.length + (j4 + 4)) := by omega
                  rw [e1, drop_append_exact srcSeg _ _ (by simp [srcSeg])]
                  have e2 : 5 + (gt.length + (j4 + 4)) - srcSeg.length =
                      gt.length + (j4 + 4) := by
                    simp [srcSeg]
                  rw [e2, drop_append_exact gt _ _ (by omega)]
                  have e3 : gt.length + (j4 + 4) - gt.length = j4 + 4 := by
                    omega
                  rw [e3, hafter4]
                  rfl
                have hTtake : ((X ++ (srcSeg ++ (gt ++ after))).take
                    (k + 5 + gt.length + 4 + j4)).all nonWS = true := by
                  rw [take_append_exact X _ _ (by omega)]
                  have e1 : k + 5 + gt.length + 4 + j4 - X.length =
                      5 + (gt.length + (j4 + 4)) := by omega
                  rw [e1, take_append_exact srcSeg _ _ (by simp [srcSeg])]
                  have e2 : 5 + (gt.length + (j4 + 4)) - srcSeg.length =
                      gt.length + (j4 + 4) := by
                    simp [srcSeg]
                  rw [e2, take_append_exact gt _ _ (by omega)]
                  have e3 : gt.length + (j4 + 4) - gt.length = j4 + 4 := by
                    omega
                  rw [e3, hafter4]
                  have e4 : (':' :: '/' :: '/' :: '/' :: b4).take (j4 + 4) =
                      ':' :: '/' :: '/' :: '/' :: b4.take j4 := rfl
                  rw [e4]
                  simp only [List.all_append, List.all_cons, Bool.and_eq_true]
                  refine ⟨hXall, ?_⟩
                  repeat' apply And.intro
                  all_goals first | assumption | decide
                have hmax := findK_max _ k hfk0 (k + 5 + gt.length + 4 + j4)
                  hTtake (by rw [hTdrop]; exact hj2)
                omega
          · -- region (iv): the new occurrence lies in the sanitized suffix
            have hdq4 : (l.take p ++ g ++ sanitizeStack after).drop q =
                (sanitizeStack after).drop (q - (p + g.length)) := by
              rw [drop_append_exact (l.take p ++ g) _ q
                (by simp only [List.length_append, htp]; omega)]
              congr 1
              simp [List.length_append, htp]
            rw [hdq4] at hmh
            have hrec : findMatch (sanitizeStack after) = none :=
              findMatch_sanitize_none after
            exact findMatch_of_matchHere_drop _ _ _ hmh hrec
termination_by l.length
decreasing_by
  exact hafterlen

/-- Claim C10 — `BaseReporter.sanitizeStack` is idempotent: for every
string `s`, `sanitizeStack (sanitizeStack s) = sanitizeStack s`, because a
`file://` URL segment rewritten to a relative `src/` path can never match
the replacement pattern again. -/
theorem sanitizeStack_idempotent (s : Str) :
    sanitizeStack (sanitizeStack s) = sanitizeStack s := by
  rw [sanitizeStack_eq (sanitizeStack s), findMatch_sanitize_none s]

end Probitas
